import Mathlib

/-!
Verification of the grid-based simulation kernel of this repository:
the pheromone field engine (ants pheromone module) and the spatial hash
index (boids spatial-hash module).

Modelling conventions:
* `Float32Array` values are modelled as exact rationals (`ℚ`); a field is a
  row-major `List ℚ`.
* Imperative loops that store into the freshly allocated output buffer are
  modelled as left folds over the loop ranges, each iteration performing the
  same `List.set` stores in program order, reading only the immutable input
  list, exactly as the source reads only the old field.
* JavaScript `Map` objects keyed by strings are modelled as functions from
  the key (a character list, the data of the string key) to the bucket,
  absent keys mapping to the empty bucket.
* Grid coordinates passed to deposit and read operations are integers (`ℤ`),
  matching how the callers and the specification use them.
-/

namespace Profile

/-! ### Pheromone field engine -/

/-- A pheromone field: row-major list of cell values. -/
abbrev Field := List ℚ

/-- The diffusion formula of one interior cell at flat index `idx`:
sum of the 8 neighbors, center keeps `1 - diffusionRate`, receives
`diffusionRate/8` from each neighbor, then evaporation multiplies. -/
def diffusedAt (field : Field) (cols : ℕ) (diffusionRate evaporationRate : ℚ)
    (idx : ℕ) : ℚ :=
  let sum :=
    field.getD (idx - 1) 0 + field.getD (idx + 1) 0 +
    field.getD (idx - cols) 0 + field.getD (idx + cols) 0 +
    field.getD (idx - 1 - cols) 0 + field.getD (idx + 1 - cols) 0 +
    field.getD (idx - 1 + cols) 0 + field.getD (idx + 1 + cols) 0
  let center := field.getD idx 0
  (center * (1 - diffusionRate) + sum / 8 * diffusionRate) * evaporationRate

/-- `diffusePheromones` from the pheromone module: allocates a zero output
buffer of the same length, copies the evaporated edges (first/last row loop,
then first/last column loop), then fills the interior with the stencil. -/
def diffusePheromones (field : Field) (cols rows : ℕ)
    (diffusionRate evaporationRate : ℚ) : Field :=
  let next0 : Field := List.replicate field.length 0
  let next1 := (List.range cols).foldl (fun next x =>
    (next.set x (field.getD x 0 * evaporationRate)).set
      (x + (rows - 1) * cols)
      (field.getD (x + (rows - 1) * cols) 0 * evaporationRate)) next0
  let next2 := (List.range rows).foldl (fun next y =>
    (next.set (y * cols) (field.getD (y * cols) 0 * evaporationRate)).set
      (cols - 1 + y * cols)
      (field.getD (cols - 1 + y * cols) 0 * evaporationRate)) next1
  (List.range' 1 (cols - 2)).foldl (fun next x =>
    (List.range' 1 (rows - 2)).foldl (fun next y =>
      next.set (x + y * cols)
        (diffusedAt field cols diffusionRate evaporationRate (x + y * cols))) next)
    next2

/-- `evaporatePheromones`: fresh buffer, every cell multiplied by
`evaporationRate`. -/
def evaporatePheromones (field : Field) (evaporationRate : ℚ) : Field :=
  (List.range field.length).foldl (fun next i =>
    next.set i (field.getD i 0 * evaporationRate))
    (List.replicate field.length 0)

/-- `depositPheromone`: bounds check, then a single in-place store clamped
above by `maxPheromone`.  The in-place mutation is modelled by returning the
updated field next to the boolean result. -/
def depositPheromone (field : Field) (cols rows : ℕ) (x y : ℤ)
    (amount maxPheromone : ℚ) : Bool × Field :=
  if x < 0 ∨ (cols : ℤ) ≤ x ∨ y < 0 ∨ (rows : ℤ) ≤ y then
    (false, field)
  else
    let idx := (x + y * (cols : ℤ)).toNat
    (true, field.set idx (min (field.getD idx 0 + amount) maxPheromone))

/-- `getPheromoneAt`: 0 out of bounds, otherwise the raw stored value. -/
def getPheromoneAt (field : Field) (cols rows : ℕ) (x y : ℤ) : ℚ :=
  if x < 0 ∨ (cols : ℤ) ≤ x ∨ y < 0 ∨ (rows : ℤ) ≤ y then 0
  else field.getD (x + y * (cols : ℤ)).toNat 0

/-- `getTotalPheromone`: running-total loop over all cells. -/
def getTotalPheromone (field : Field) : ℚ :=
  field.foldl (fun total v => total + v) 0

/-- `createPheromoneField`: zero-initialized dense array of size
`cols × rows`. -/
def createPheromoneField (cols rows : ℕ) : Field :=
  List.replicate (cols * rows) 0

/-! ### Store-list machinery: a fold of `List.set` stores, normalized -/

/-- Apply a list of indexed stores in order. -/
def writeAll (init : Field) (ws : List (ℕ × ℚ)) : Field :=
  ws.foldl (fun acc p => acc.set p.1 p.2) init

/-- The stores of the two edge loops of `diffusePheromones`, in program order. -/
def edgeWrites (field : Field) (cols rows : ℕ) (e : ℚ) : List (ℕ × ℚ) :=
  ((List.range cols).flatMap fun x =>
    [(x, field.getD x 0 * e),
     (x + (rows - 1) * cols, field.getD (x + (rows - 1) * cols) 0 * e)]) ++
  ((List.range rows).flatMap fun y =>
    [(y * cols, field.getD (y * cols) 0 * e),
     (cols - 1 + y * cols, field.getD (cols - 1 + y * cols) 0 * e)])

/-- The stores of the interior double loop of `diffusePheromones`. -/
def interiorWrites (field : Field) (cols rows : ℕ) (d e : ℚ) : List (ℕ × ℚ) :=
  (List.range' 1 (cols - 2)).flatMap fun x =>
    (List.range' 1 (rows - 2)).map fun y =>
      (x + y * cols, diffusedAt field cols d e (x + y * cols))

/-- A cell is on the boundary when it lies in the first or last column or row. -/
def isBoundary (cols rows x y : ℕ) : Prop :=
  x = 0 ∨ x = cols - 1 ∨ y = 0 ∨ y = rows - 1

instance (cols rows x y : ℕ) : Decidable (isBoundary cols rows x y) := by
  unfold isBoundary; infer_instance

/-- The record returned by `worldToGrid`. -/
structure GridCoord where
  gx : ℤ
  gy : ℤ
deriving DecidableEq, Repr

/-- `worldToGrid`: floor-division of each world coordinate by the cell
size. -/
def worldToGrid (worldX worldY gridSize : ℚ) : GridCoord :=
  { gx := ⌊worldX / gridSize⌋, gy := ⌊worldY / gridSize⌋ }

/-- A finite sequence of `depositPheromone` calls at the same grid cell. -/
def depositAll (field : Field) (cols rows : ℕ) (x y : ℤ) (amounts : List ℚ)
    (maxP : ℚ) : Field :=
  amounts.foldl (fun f a => (depositPheromone f cols rows x y a maxP).2) field

/-- Two-buffer semantics of `diffusePheromones`: the state is the pair
(input field, output buffer); every iteration reads only the first
component and stores only into the second, exactly as the source reads
`field` and writes `next`. -/
def diffusePheromonesTrace (field : Field) (cols rows : ℕ)
    (d e : ℚ) : Field × Field :=
  let s0 : Field × Field := (field, List.replicate field.length 0)
  let s1 := (List.range cols).foldl (fun s x =>
    (s.1, (s.2.set x (s.1.getD x 0 * e)).set (x + (rows - 1) * cols)
      (s.1.getD (x + (rows - 1) * cols) 0 * e))) s0
  let s2 := (List.range rows).foldl (fun s y =>
    (s.1, (s.2.set (y * cols) (s.1.getD (y * cols) 0 * e)).set
      (cols - 1 + y * cols) (s.1.getD (cols - 1 + y * cols) 0 * e))) s1
  (List.range' 1 (cols - 2)).foldl (fun s x =>
    (List.range' 1 (rows - 2)).foldl (fun s y =>
      (s.1, s.2.set (x + y * cols) (diffusedAt s.1 cols d e (x + y * cols)))) s)
    s2

/-- Two-buffer semantics of `evaporatePheromones`. -/
def evaporatePheromonesTrace (field : Field) (e : ℚ) : Field × Field :=
  (List.range field.length).foldl (fun s i =>
    (s.1, s.2.set i (s.1.getD i 0 * e)))
    (field, List.replicate field.length 0)

/-! ### Spatial hash index -/

/-- A 2D vector of world coordinates. -/
structure Vector2D where
  x : ℚ
  y : ℚ
deriving DecidableEq, Repr

/-- A boid record; the spatial hash only reads `pos`. -/
structure Boid where
  pos : Vector2D
  vel : Vector2D
  acc : Vector2D
  maxSpeed : ℚ
  maxForce : ℚ
deriving DecidableEq, Repr

/-- Decimal printing of a natural number as a character list (the decimal
conversion the template string applies to an integer-valued coordinate). -/
def natStr (n : ℕ) : List Char :=
  if n = 0 then ['0']
  else (Nat.digits 10 n).reverse.map fun d => Char.ofNat (48 + d)

/-- Decimal printing of an integer as a character list. -/
def intStr (z : ℤ) : List Char :=
  if z < 0 then '-' :: natStr z.natAbs else natStr z.toNat

/-- The template-string cell key `cellX,cellY`, as the character data of
the key string. -/
def cellKeyOf (cx cy : ℤ) : List Char := intStr cx ++ [','] ++ intStr cy

/-- `getCellKey` from the spatial-hash module. -/
def getCellKey (pos : Vector2D) (cellSize : ℚ) : List Char :=
  cellKeyOf ⌊pos.x / cellSize⌋ ⌊pos.y / cellSize⌋

/-- The spatial grid: a JavaScript `Map` from key strings to buckets,
modelled as a total function where a missing key maps to the empty
bucket. -/
abbrev SpatialGrid := List Char → List Boid

/-- One iteration of the `buildSpatialHash` loop: append the boid to the
bucket of its cell key. -/
def hashStep (cellSize : ℚ) (grid : SpatialGrid) (boid : Boid) : SpatialGrid :=
  let key := cellKeyOf ⌊boid.pos.x / cellSize⌋ ⌊boid.pos.y / cellSize⌋
  fun k => if k = key then grid key ++ [boid] else grid k

/-- `buildSpatialHash`: append every boid to the bucket of its cell key. -/
def buildSpatialHash (boids : List Boid) (cellSize : ℚ) : SpatialGrid :=
  boids.foldl (fun grid boid =>
    let key := cellKeyOf ⌊boid.pos.x / cellSize⌋ ⌊boid.pos.y / cellSize⌋
    fun k => if k = key then grid key ++ [boid] else grid k)
    (fun _ => [])

/-- `getNeighbors`: concatenate the buckets of the 3×3 block of cells
around the cell of the query boid. -/
def getNeighbors (boid : Boid) (grid : SpatialGrid) (cellSize : ℚ) :
    List Boid :=
  let cellX := ⌊boid.pos.x / cellSize⌋
  let cellY := ⌊boid.pos.y / cellSize⌋
  ([-1, 0, 1] : List ℤ).flatMap fun dx =>
    ([-1, 0, 1] : List ℤ).flatMap fun dy =>
      grid (cellKeyOf (cellX + dx) (cellY + dy))

@[simp] lemma writeAll_nil (init : Field) : writeAll init [] = init := rfl

@[simp] lemma writeAll_cons (init : Field) (p : ℕ × ℚ) (ws : List (ℕ × ℚ)) :
    writeAll init (p :: ws) = writeAll (init.set p.1 p.2) ws := rfl

lemma writeAll_append (init : Field) (ws1 ws2 : List (ℕ × ℚ)) :
    writeAll init (ws1 ++ ws2) = writeAll (writeAll init ws1) ws2 := by
  simp [writeAll, List.foldl_append]

lemma writeAll_length (ws : List (ℕ × ℚ)) :
    ∀ init : Field, (writeAll init ws).length = init.length := by
  induction ws with
  | nil => intro init; rfl
  | cons p t ih => intro init; rw [writeAll_cons, ih, List.length_set]

lemma getD_set_ne (l : Field) (i j : ℕ) (v : ℚ) (h : i ≠ j) :
    (l.set i v).getD j 0 = l.getD j 0 := by
  rw [List.getD_eq_getElem?_getD, List.getD_eq_getElem?_getD, List.getElem?_set_ne h]

lemma getD_set_self (l : Field) (i : ℕ) (v : ℚ) (h : i < l.length) :
    (l.set i v).getD i 0 = v := by
  rw [List.getD_eq_getElem?_getD, List.getElem?_set_self h]
  rfl

lemma writeAll_getD_of_forall_ne (ws : List (ℕ × ℚ)) (j : ℕ)
    (hne : ∀ p ∈ ws, p.1 ≠ j) :
    ∀ init : Field, (writeAll init ws).getD j 0 = init.getD j 0 := by
  induction ws with
  | nil => intro init; rfl
  | cons p t ih =>
      intro init
      rw [writeAll_cons, ih (fun q hq => hne q (List.mem_cons_of_mem _ hq)),
        getD_set_ne _ _ _ _ (hne p (List.mem_cons_self _ _))]

lemma writeAll_getD_of_mem (ws : List (ℕ × ℚ)) (j : ℕ) (v : ℚ)
    (hall : ∀ p ∈ ws, p.1 = j → p.2 = v) (hmem : ∃ p ∈ ws, p.1 = j) :
    ∀ init : Field, j < init.length → (writeAll init ws).getD j 0 = v := by
  induction ws with
  | nil => rcases hmem with ⟨p, hp, -⟩; cases hp
  | cons p t ih =>
      intro init hj
      rw [writeAll_cons]
      by_cases hex : ∃ q ∈ t, q.1 = j
      · exact ih (fun q hq => hall q (List.mem_cons_of_mem _ hq)) hex _
          (by rw [List.length_set]; exact hj)
      · push_neg at hex
        rw [writeAll_getD_of_forall_ne t j hex]
        have hp1 : p.1 = j := by
          rcases hmem with ⟨q, hq, hq1⟩
          rcases List.mem_cons.1 hq with rfl | hqt
          · exact hq1
          · exact absurd hq1 (hex q hqt)
        have hv : p.2 = v := hall p (List.mem_cons_self _ _) hp1
        rw [hp1, hv]
        exact getD_set_self _ _ _ hj

lemma getD_replicate_zero (n j : ℕ) : (List.replicate n (0 : ℚ)).getD j 0 = 0 := by
  rcases lt_or_le j n with hj | hj
  · rw [List.getD_eq_getElem _ _ (by simpa using hj), List.getElem_replicate]
  · exact List.getD_eq_default _ _ (by simpa using hj)

/-- A loop storing twice per iteration, as a store list. -/
lemma foldl_double_set_eq_writeAll (i1 i2 : ℕ → ℕ) (v1 v2 : ℕ → ℚ) :
    ∀ (l : List ℕ) (init : Field),
      l.foldl (fun next x => (next.set (i1 x) (v1 x)).set (i2 x) (v2 x)) init =
        writeAll init (l.flatMap fun x => [(i1 x, v1 x), (i2 x, v2 x)]) := by
  intro l
  induction l with
  | nil => intro init; rfl
  | cons a t ih => intro init; rw [List.flatMap_cons, List.foldl_cons]; simpa using ih _

/-- A loop storing once per iteration, as a store list. -/
lemma foldl_set_eq_writeAll (ix : ℕ → ℕ) (vv : ℕ → ℚ) :
    ∀ (l : List ℕ) (init : Field),
      l.foldl (fun next y => next.set (ix y) (vv y)) init =
        writeAll init (l.map fun y => (ix y, vv y)) := by
  intro l
  induction l with
  | nil => intro init; rfl
  | cons a t ih => intro init; rw [List.map_cons, List.foldl_cons]; simpa using ih _

/-- A nested loop storing once per inner iteration, as a store list. -/
lemma foldl_nested_set_eq_writeAll (ix : ℕ → ℕ → ℕ) (vv : ℕ → ℕ → ℚ) :
    ∀ (l1 l2 : List ℕ) (init : Field),
      l1.foldl (fun next x => l2.foldl (fun next y => next.set (ix x y) (vv x y)) next) init =
        writeAll init (l1.flatMap fun x => l2.map fun y => (ix x y, vv x y)) := by
  intro l1 l2
  induction l1 with
  | nil => intro init; rfl
  | cons a t ih =>
      intro init
      rw [List.flatMap_cons, List.foldl_cons, writeAll_append,
        foldl_set_eq_writeAll (ix a) (vv a) l2 init]
      exact ih _

lemma diffusePheromones_eq_writeAll (field : Field) (cols rows : ℕ) (d e : ℚ) :
    diffusePheromones field cols rows d e =
      writeAll (writeAll (List.replicate field.length 0) (edgeWrites field cols rows e))
        (interiorWrites field cols rows d e) := by
  simp only [diffusePheromones, edgeWrites, interiorWrites]
  rw [foldl_double_set_eq_writeAll, foldl_double_set_eq_writeAll,
    foldl_nested_set_eq_writeAll, writeAll_append]

lemma index_lt (cols rows x y : ℕ) (hx : x < cols) (hy : y < rows) :
    x + y * cols < cols * rows := by
  calc x + y * cols < cols + y * cols := by omega
    _ = (y + 1) * cols := by ring
    _ ≤ rows * cols := Nat.mul_le_mul_right _ hy
    _ = cols * rows := Nat.mul_comm _ _

lemma index_inj (cols x x' y y' : ℕ) (hx : x < cols) (hx' : x' < cols)
    (h : x + y * cols = x' + y' * cols) : x = x' ∧ y = y' := by
  have hc : 0 < cols := Nat.pos_of_ne_zero (by omega)
  have m1 : (x + y * cols) % cols = x := by
    rw [Nat.add_mul_mod_self_right, Nat.mod_eq_of_lt hx]
  have m2 : (x' + y' * cols) % cols = x' := by
    rw [Nat.add_mul_mod_self_right, Nat.mod_eq_of_lt hx']
  have d1 : (x + y * cols) / cols = y := by
    rw [Nat.add_mul_div_right _ _ hc, Nat.div_eq_of_lt hx, Nat.zero_add]
  have d2 : (x' + y' * cols) / cols = y' := by
    rw [Nat.add_mul_div_right _ _ hc, Nat.div_eq_of_lt hx', Nat.zero_add]
  constructor
  · rw [← m1, ← m2, h]
  · rw [← d1, ← d2, h]

lemma edgeWrites_val (field : Field) (cols rows : ℕ) (e : ℚ) :
    ∀ p ∈ edgeWrites field cols rows e, p.2 = field.getD p.1 0 * e := by
  intro p hp
  simp only [edgeWrites, List.mem_append, List.mem_flatMap, List.mem_range,
    List.mem_cons, List.mem_singleton, List.not_mem_nil, or_false] at hp
  rcases hp with ⟨x, -, rfl | rfl⟩ | ⟨y, -, rfl | rfl⟩ <;> rfl

lemma interiorWrites_val (field : Field) (cols rows : ℕ) (d e : ℚ) :
    ∀ p ∈ interiorWrites field cols rows d e,
      p.2 = diffusedAt field cols d e p.1 := by
  intro p hp
  simp only [interiorWrites, List.mem_flatMap, List.mem_map] at hp
  rcases hp with ⟨x, -, y, -, rfl⟩
  rfl

lemma interiorWrites_idx (field : Field) (cols rows : ℕ) (d e : ℚ) :
    ∀ p ∈ interiorWrites field cols rows d e,
      ∃ x y, 1 ≤ x ∧ x < cols - 1 ∧ 1 ≤ y ∧ y < rows - 1 ∧ p.1 = x + y * cols := by
  intro p hp
  simp only [interiorWrites, List.mem_flatMap, List.mem_map, List.mem_range'_1] at hp
  rcases hp with ⟨x, hx, y, hy, rfl⟩
  exact ⟨x, y, hx.1, by omega, hy.1, by omega, rfl⟩

lemma interiorWrites_ne_of_boundary (field : Field) (cols rows : ℕ) (d e : ℚ)
    (x y : ℕ) (hx : x < cols) (hy : y < rows) (hb : isBoundary cols rows x y) :
    ∀ p ∈ interiorWrites field cols rows d e, p.1 ≠ x + y * cols := by
  intro p hp hcontra
  obtain ⟨x', y', hx1, hx2, hy1, hy2, hpidx⟩ := interiorWrites_idx field cols rows d e p hp
  rw [hpidx] at hcontra
  obtain ⟨rfl, rfl⟩ := index_inj cols x' x y' y (by omega) hx hcontra
  rcases hb with h | h | h | h <;> omega

lemma edgeWrites_mem_of_boundary (field : Field) (cols rows : ℕ) (e : ℚ)
    (x y : ℕ) (hx : x < cols) (hy : y < rows) (hb : isBoundary cols rows x y) :
    ∃ p ∈ edgeWrites field cols rows e, p.1 = x + y * cols := by
  simp only [edgeWrites, List.mem_append, List.mem_flatMap, List.mem_range,
    List.mem_cons, List.mem_singleton, List.not_mem_nil, or_false]
  rcases hb with rfl | rfl | rfl | rfl
  · exact ⟨(y * cols, field.getD (y * cols) 0 * e),
      Or.inr ⟨y, hy, Or.inl rfl⟩, by omega⟩
  · exact ⟨(cols - 1 + y * cols, field.getD (cols - 1 + y * cols) 0 * e),
      Or.inr ⟨y, hy, Or.inr rfl⟩, rfl⟩
  · exact ⟨(x, field.getD x 0 * e), Or.inl ⟨x, hx, Or.inl rfl⟩, by omega⟩
  · exact ⟨(x + (rows - 1) * cols, field.getD (x + (rows - 1) * cols) 0 * e),
      Or.inl ⟨x, hx, Or.inr rfl⟩, rfl⟩

lemma interiorWrites_mem_of_interior (field : Field) (cols rows : ℕ) (d e : ℚ)
    (x y : ℕ) (hx : x < cols) (hy : y < rows) (hb : ¬ isBoundary cols rows x y) :
    ∃ p ∈ interiorWrites field cols rows d e, p.1 = x + y * cols := by
  simp only [isBoundary, not_or] at hb
  refine ⟨(x + y * cols, diffusedAt field cols d e (x + y * cols)), ?_, rfl⟩
  simp only [interiorWrites, List.mem_flatMap, List.mem_map, List.mem_range'_1]
  exact ⟨x, ⟨by omega, by omega⟩, y, ⟨by omega, by omega⟩, rfl⟩

/-- Length of the diffused field equals the input length. -/
lemma diffusePheromones_length (field : Field) (cols rows : ℕ) (d e : ℚ) :
    (diffusePheromones field cols rows d e).length = field.length := by
  rw [diffusePheromones_eq_writeAll, writeAll_length, writeAll_length,
    List.length_replicate]

/-- Pointwise characterization of `diffusePheromones` on a well-formed field:
boundary cells only evaporate, interior cells follow the diffusion stencil. -/
lemma diffusePheromones_getD (field : Field) (cols rows : ℕ) (d e : ℚ)
    (hlen : field.length = cols * rows) (x y : ℕ) (hx : x < cols) (hy : y < rows) :
    (diffusePheromones field cols rows d e).getD (x + y * cols) 0 =
      if isBoundary cols rows x y then field.getD (x + y * cols) 0 * e
      else diffusedAt field cols d e (x + y * cols) := by
  rw [diffusePheromones_eq_writeAll]
  have hjlt : x + y * cols < (List.replicate field.length (0 : ℚ)).length := by
    rw [List.length_replicate, hlen]
    exact index_lt cols rows x y hx hy
  by_cases hb : isBoundary cols rows x y
  · rw [if_pos hb,
      writeAll_getD_of_forall_ne _ _
        (interiorWrites_ne_of_boundary field cols rows d e x y hx hy hb),
      writeAll_getD_of_mem _ _ (field.getD (x + y * cols) 0 * e)
        (fun p hp hpj => by rw [edgeWrites_val field cols rows e p hp, hpj])
        (edgeWrites_mem_of_boundary field cols rows e x y hx hy hb) _ hjlt]
  · rw [if_neg hb,
      writeAll_getD_of_mem _ _ (diffusedAt field cols d e (x + y * cols))
        (fun p hp hpj => by rw [interiorWrites_val field cols rows d e p hp, hpj])
        (interiorWrites_mem_of_interior field cols rows d e x y hx hy hb) _
        (by rw [writeAll_length]; exact hjlt)]

/-- The interior diffusion value, re-expressed over the 8-connected
neighbor cell coordinates. -/
lemma diffusedAt_coords (field : Field) (cols : ℕ) (d e : ℚ) (x y : ℕ)
    (hx : 1 ≤ x) (hy : 1 ≤ y) :
    diffusedAt field cols d e (x + y * cols) =
      (field.getD (x + y * cols) 0 * (1 - d) +
        (field.getD (x - 1 + y * cols) 0 + field.getD (x + 1 + y * cols) 0 +
         field.getD (x + (y - 1) * cols) 0 + field.getD (x + (y + 1) * cols) 0 +
         field.getD (x - 1 + (y - 1) * cols) 0 +
         field.getD (x + 1 + (y - 1) * cols) 0 +
         field.getD (x - 1 + (y + 1) * cols) 0 +
         field.getD (x + 1 + (y + 1) * cols) 0) / 8 * d) * e := by
  have hyc : cols ≤ y * cols := Nat.le_mul_of_pos_left cols hy
  have hsub : (y - 1) * cols = y * cols - cols := by rw [Nat.sub_mul, one_mul]
  have hadd : (y + 1) * cols = y * cols + cols := by rw [Nat.add_mul, one_mul]
  have g : ∀ a b : ℕ, a = b → field.getD a 0 = field.getD b 0 :=
    fun a b h => by rw [h]
  simp only [diffusedAt]
  rw [hsub, hadd,
    g (x + y * cols - 1) (x - 1 + y * cols) (by omega),
    g (x + y * cols + 1) (x + 1 + y * cols) (by omega),
    g (x + y * cols - cols) (x + (y * cols - cols)) (by omega),
    g (x + y * cols + cols) (x + (y * cols + cols)) (by omega),
    g (x + y * cols - 1 - cols) (x - 1 + (y * cols - cols)) (by omega),
    g (x + y * cols + 1 - cols) (x + 1 + (y * cols - cols)) (by omega),
    g (x + y * cols - 1 + cols) (x - 1 + (y * cols + cols)) (by omega),
    g (x + y * cols + 1 + cols) (x + 1 + (y * cols + cols)) (by omega)]

/-- C1: `diffusePheromones` computes exactly the specified stencil: the
result has the length of the input; every boundary cell of the result is
the old value times the evaporation rate; every interior cell is
`(center × (1 − diffusionRate) + neighborSum / 8 × diffusionRate) ×
evaporationRate` over the 8-connected neighbors. -/
theorem diffuse_stencil_spec (field : Field) (cols rows : ℕ) (d e : ℚ)
    (hcols : 1 ≤ cols) (hrows : 1 ≤ rows) (hlen : field.length = cols * rows) :
    (diffusePheromones field cols rows d e).length = field.length ∧
    (∀ x y : ℕ, x < cols → y < rows →
      (x = 0 ∨ x = cols - 1 ∨ y = 0 ∨ y = rows - 1) →
      (diffusePheromones field cols rows d e).getD (x + y * cols) 0 =
        field.getD (x + y * cols) 0 * e) ∧
    (∀ x y : ℕ, 1 ≤ x → x ≤ cols - 2 → 1 ≤ y → y ≤ rows - 2 →
      (diffusePheromones field cols rows d e).getD (x + y * cols) 0 =
        (field.getD (x + y * cols) 0 * (1 - d) +
          (field.getD (x - 1 + y * cols) 0 + field.getD (x + 1 + y * cols) 0 +
           field.getD (x + (y - 1) * cols) 0 +
           field.getD (x + (y + 1) * cols) 0 +
           field.getD (x - 1 + (y - 1) * cols) 0 +
           field.getD (x + 1 + (y - 1) * cols) 0 +
           field.getD (x - 1 + (y + 1) * cols) 0 +
           field.getD (x + 1 + (y + 1) * cols) 0) / 8 * d) * e) := by
  refine ⟨diffusePheromones_length field cols rows d e,
    fun x y hx hy hb => ?_, fun x y hx1 hx2 hy1 hy2 => ?_⟩
  · rw [diffusePheromones_getD field cols rows d e hlen x y hx hy,
      if_pos (show isBoundary cols rows x y from hb)]
  · have hx' : x < cols := by omega
    have hy' : y < rows := by omega
    have hnb : ¬ isBoundary cols rows x y := by
      simp only [isBoundary]; omega
    rw [diffusePheromones_getD field cols rows d e hlen x y hx' hy',
      if_neg hnb, diffusedAt_coords field cols d e x y hx1 hy1]

/-- Witness for C1: a 3×3 single-impulse field, interior cell. -/
theorem diffuse_stencil_spec_witness :
    (diffusePheromones [0, 0, 0, 0, 100, 0, 0, 0, 0] 3 3 (1/2) 1).getD
      (1 + 1 * 3) 0 = 50 := by
  have h := (diffuse_stencil_spec [0, 0, 0, 0, 100, 0, 0, 0, 0] 3 3 (1/2) 1
    (by decide) (by decide) (by decide)).2.2 1 1
    (by decide) (by decide) (by decide) (by decide)
  rw [h]
  norm_num [List.getD]

/-- C5: out-of-bounds coordinates make `depositPheromone` return `false`
with the field untouched and `getPheromoneAt` return 0; in-bounds
coordinates make `depositPheromone` return `true` and `getPheromoneAt`
return the raw stored value. -/
theorem deposit_read_oob_total (field : Field) (cols rows : ℕ) (x y : ℤ)
    (amount maxP : ℚ) :
    ((x < 0 ∨ (cols : ℤ) ≤ x ∨ y < 0 ∨ (rows : ℤ) ≤ y) →
      (depositPheromone field cols rows x y amount maxP).1 = false ∧
      (depositPheromone field cols rows x y amount maxP).2 = field ∧
      getPheromoneAt field cols rows x y = 0) ∧
    ((0 ≤ x ∧ x < (cols : ℤ) ∧ 0 ≤ y ∧ y < (rows : ℤ)) →
      (depositPheromone field cols rows x y amount maxP).1 = true ∧
      getPheromoneAt field cols rows x y =
        field.getD (x + y * (cols : ℤ)).toNat 0) := by
  refine ⟨fun h => ?_, fun h => ?_⟩
  · simp [depositPheromone, getPheromoneAt, if_pos h]
  · obtain ⟨h1, h2, h3, h4⟩ := h
    have hcond : ¬ (x < 0 ∨ (cols : ℤ) ≤ x ∨ y < 0 ∨ (rows : ℤ) ≤ y) := by
      omega
    simp [depositPheromone, getPheromoneAt, if_neg hcond]

/-- Witness for C5: an out-of-bounds deposit and an in-bounds read on a
concrete one-cell field. -/
theorem deposit_read_oob_total_witness :
    (depositPheromone [5] 1 1 (-1) 0 2 10).1 = false ∧
    getPheromoneAt [5] 1 1 0 0 = 5 := by
  refine ⟨((deposit_read_oob_total [5] 1 1 (-1) 0 2 10).1 (by decide)).1, ?_⟩
  have h := ((deposit_read_oob_total [5] 1 1 0 0 2 10).2
    (by exact ⟨by decide, by decide, by decide, by decide⟩)).2
  rw [h]
  rfl

/-- C10: `depositPheromone` clamps only at the top: any in-bounds deposit,
with a negative amount allowed, stores `min(old + amount, maxPheromone)`
and returns `true`; a concrete negative deposit drives the cell strictly
negative. -/
theorem deposit_top_clamp_only :
    (∀ (field : Field) (cols rows : ℕ) (x y : ℤ) (amount maxP : ℚ),
      0 ≤ x → x < (cols : ℤ) → 0 ≤ y → y < (rows : ℤ) →
      (depositPheromone field cols rows x y amount maxP).1 = true ∧
      (depositPheromone field cols rows x y amount maxP).2 =
        field.set (x + y * (cols : ℤ)).toNat
          (min (field.getD (x + y * (cols : ℤ)).toNat 0 + amount) maxP)) ∧
    getPheromoneAt (depositPheromone [2] 1 1 0 0 (-5) 10).2 1 1 0 0 < 0 := by
  constructor
  · intro field cols rows x y amount maxP h1 h2 h3 h4
    have hcond : ¬ (x < 0 ∨ (cols : ℤ) ≤ x ∨ y < 0 ∨ (rows : ℤ) ≤ y) := by
      omega
    simp [depositPheromone, if_neg hcond]
  · norm_num [depositPheromone, getPheromoneAt, List.getD, min_def]

/-- Witness for C10: the universally quantified part applied at a concrete
in-bounds deposit. -/
theorem deposit_top_clamp_only_witness :
    (depositPheromone [2] 1 1 0 0 (-5) 10).1 = true :=
  (deposit_top_clamp_only.1 [2] 1 1 0 0 (-5) 10
    (by decide) (by decide) (by decide) (by decide)).1

lemma writeAll_forall (P : ℚ → Prop) (ws : List (ℕ × ℚ))
    (hw : ∀ p ∈ ws, P p.2) :
    ∀ init : Field, (∀ j < init.length, P (init.getD j 0)) →
      ∀ j < (writeAll init ws).length, P ((writeAll init ws).getD j 0) := by
  induction ws with
  | nil => intro init h0 j hj; exact h0 j hj
  | cons p t ih =>
      intro init h0 j hj
      rw [writeAll_cons] at hj ⊢
      refine ih (fun q hq => hw q (List.mem_cons_of_mem _ hq)) _ ?_ j hj
      intro k hk
      rw [List.length_set] at hk
      by_cases hkp : p.1 = k
      · subst hkp
        rw [getD_set_self _ _ _ hk]
        exact hw p (List.mem_cons_self _ _)
      · rw [getD_set_ne _ _ _ _ hkp]
        exact h0 k hk

lemma getD_nonneg_of_forall (field : Field)
    (h : ∀ j < field.length, 0 ≤ field.getD j 0) :
    ∀ j, 0 ≤ field.getD j 0 := by
  intro j
  rcases lt_or_le j field.length with hj | hj
  · exact h j hj
  · rw [List.getD_eq_default _ _ hj]

lemma diffusedAt_nonneg (field : Field) (cols : ℕ) (d e : ℚ)
    (hf : ∀ j, 0 ≤ field.getD j 0) (hd0 : 0 ≤ d) (hd1 : d ≤ 1) (he0 : 0 ≤ e)
    (idx : ℕ) : 0 ≤ diffusedAt field cols d e idx := by
  simp only [diffusedAt]
  apply mul_nonneg _ he0
  apply add_nonneg
  · exact mul_nonneg (hf _) (by linarith)
  · apply mul_nonneg _ hd0
    apply div_nonneg _ (by norm_num)
    repeat apply add_nonneg
    all_goals exact hf _

lemma evaporatePheromones_eq_writeAll (field : Field) (e : ℚ) :
    evaporatePheromones field e =
      writeAll (List.replicate field.length 0)
        ((List.range field.length).map fun i => (i, field.getD i 0 * e)) := by
  simp only [evaporatePheromones]
  rw [foldl_set_eq_writeAll]

lemma evaporatePheromones_length (field : Field) (e : ℚ) :
    (evaporatePheromones field e).length = field.length := by
  rw [evaporatePheromones_eq_writeAll, writeAll_length, List.length_replicate]

lemma evaporatePheromones_getD (field : Field) (e : ℚ) (j : ℕ)
    (hj : j < field.length) :
    (evaporatePheromones field e).getD j 0 = field.getD j 0 * e := by
  rw [evaporatePheromones_eq_writeAll]
  refine writeAll_getD_of_mem _ j (field.getD j 0 * e) ?_ ?_ _
    (by rw [List.length_replicate]; exact hj)
  · intro p hp hpj
    simp only [List.mem_map, List.mem_range] at hp
    rcases hp with ⟨i, -, rfl⟩
    simp only at hpj
    rw [hpj]
  · refine ⟨(j, field.getD j 0 * e), ?_, rfl⟩
    simp only [List.mem_map, List.mem_range]
    exact ⟨j, hj, rfl⟩

/-- C6: after any deposit on a field whose cells lie in `[0, maxLevel]`
with a non-negative amount, all cells still lie in `[0, maxLevel]`; with
rates in `[0, 1]`, diffusion and evaporation of a non-negative field
return non-negative fields. -/
theorem range_invariant :
    (∀ (field : Field) (cols rows : ℕ) (x y : ℤ) (amount maxP : ℚ),
      (∀ j < field.length, 0 ≤ field.getD j 0 ∧ field.getD j 0 ≤ maxP) →
      0 ≤ amount →
      ∀ j < (depositPheromone field cols rows x y amount maxP).2.length,
        0 ≤ (depositPheromone field cols rows x y amount maxP).2.getD j 0 ∧
        (depositPheromone field cols rows x y amount maxP).2.getD j 0 ≤ maxP) ∧
    (∀ (field : Field) (cols rows : ℕ) (d e : ℚ),
      (∀ j < field.length, 0 ≤ field.getD j 0) →
      0 ≤ d → d ≤ 1 → 0 ≤ e → e ≤ 1 →
      ∀ j < (diffusePheromones field cols rows d e).length,
        0 ≤ (diffusePheromones field cols rows d e).getD j 0) ∧
    (∀ (field : Field) (e : ℚ),
      (∀ j < field.length, 0 ≤ field.getD j 0) →
      0 ≤ e → e ≤ 1 →
      ∀ j < (evaporatePheromones field e).length,
        0 ≤ (evaporatePheromones field e).getD j 0) := by
  refine ⟨?_, ?_, ?_⟩
  · intro field cols rows x y amount maxP hfield hamt
    by_cases hc : x < 0 ∨ (cols : ℤ) ≤ x ∨ y < 0 ∨ (rows : ℤ) ≤ y
    · simp only [depositPheromone, if_pos hc]
      exact hfield
    · simp only [depositPheromone, if_neg hc]
      intro j hj
      rw [List.length_set] at hj
      by_cases hjk : (x + y * (cols : ℤ)).toNat = j
      · subst hjk
        rw [getD_set_self _ _ _ hj]
        obtain ⟨h0, h1⟩ := hfield _ hj
        constructor
        · exact le_min (by linarith) (by linarith)
        · exact min_le_right _ _
      · rw [getD_set_ne _ _ _ _ hjk]
        exact hfield j hj
  · intro field cols rows d e hf hd0 hd1 he0 he1 j hj
    have hf' := getD_nonneg_of_forall field hf
    have base : ∀ k < (List.replicate field.length (0 : ℚ)).length,
        0 ≤ (List.replicate field.length (0 : ℚ)).getD k 0 := by
      intro k _
      rw [getD_replicate_zero]
    have edge : ∀ p ∈ edgeWrites field cols rows e, 0 ≤ p.2 := by
      intro p hp
      rw [edgeWrites_val field cols rows e p hp]
      exact mul_nonneg (hf' _) he0
    have inter : ∀ p ∈ interiorWrites field cols rows d e, 0 ≤ p.2 := by
      intro p hp
      rw [interiorWrites_val field cols rows d e p hp]
      exact diffusedAt_nonneg field cols d e hf' hd0 hd1 he0 _
    have step1 := writeAll_forall (fun v => 0 ≤ v) _ edge _ base
    have step2 := writeAll_forall (fun v => 0 ≤ v) _ inter _ step1
    rw [diffusePheromones_eq_writeAll] at hj ⊢
    exact step2 j hj
  · intro field e hf he0 he1 j hj
    rw [evaporatePheromones_length] at hj
    rw [evaporatePheromones_getD field e j hj]
    exact mul_nonneg (hf j hj) he0

/-- Witness for C6: the three invariants applied on concrete one-cell
fields. -/
theorem range_invariant_witness :
    0 ≤ (depositPheromone [1] 1 1 0 0 2 5).2.getD 0 0 ∧
    0 ≤ (diffusePheromones [1] 1 1 (1/2) (1/2)).getD 0 0 ∧
    0 ≤ (evaporatePheromones [1] (1/2)).getD 0 0 := by
  have hcell : ∀ j < ([1] : Field).length,
      0 ≤ ([1] : Field).getD j 0 ∧ ([1] : Field).getD j 0 ≤ 5 := by
    intro j hj
    have hj0 : j = 0 := by simpa using hj
    subst hj0
    norm_num [List.getD]
  have hnn : ∀ j < ([1] : Field).length, 0 ≤ ([1] : Field).getD j 0 :=
    fun j hj => (hcell j hj).1
  refine ⟨?_, ?_, ?_⟩
  · exact (range_invariant.1 [1] 1 1 0 0 2 5 hcell (by norm_num) 0
      (by simp [depositPheromone])).1
  · exact range_invariant.2.1 [1] 1 1 (1/2) (1/2) hnn
      (by norm_num) (by norm_num) (by norm_num) (by norm_num) 0
      (by rw [diffusePheromones_length]; norm_num)
  · exact range_invariant.2.2 [1] (1/2) hnn (by norm_num) (by norm_num) 0
      (by rw [evaporatePheromones_length]; norm_num)

lemma idx_toNat_lt (cols rows : ℕ) (x y : ℤ)
    (hx0 : 0 ≤ x) (hxc : x < (cols : ℤ)) (hy0 : 0 ≤ y) (hyr : y < (rows : ℤ)) :
    (x + y * (cols : ℤ)).toNat < cols * rows := by
  have hcnn : (0 : ℤ) ≤ (cols : ℤ) := Int.natCast_nonneg cols
  have hyc : y * (cols : ℤ) ≤ ((rows : ℤ) - 1) * cols :=
    mul_le_mul_of_nonneg_right (by omega) hcnn
  have hf : 0 ≤ y * (cols : ℤ) := mul_nonneg hy0 hcnn
  have hlt : x + y * (cols : ℤ) < (cols : ℤ) * rows := by nlinarith
  have hcast : ((cols * rows : ℕ) : ℤ) = (cols : ℤ) * rows := by push_cast; ring
  omega

lemma depositPheromone_inbounds (field : Field) (cols rows : ℕ) (x y : ℤ)
    (amount maxP : ℚ)
    (h1 : 0 ≤ x) (h2 : x < (cols : ℤ)) (h3 : 0 ≤ y) (h4 : y < (rows : ℤ)) :
    depositPheromone field cols rows x y amount maxP =
      (true, field.set (x + y * (cols : ℤ)).toNat
        (min (field.getD (x + y * (cols : ℤ)).toNat 0 + amount) maxP)) := by
  have hcond : ¬ (x < 0 ∨ (cols : ℤ) ≤ x ∨ y < 0 ∨ (rows : ℤ) ≤ y) := by omega
  simp [depositPheromone, if_neg hcond]

lemma min_add_min (s a maxP : ℚ) (ha : 0 ≤ a) :
    min (min s maxP + a) maxP = min (s + a) maxP := by
  rcases le_total s maxP with h | h
  · rw [min_eq_left h]
  · rw [min_eq_right h, min_eq_right (by linarith), min_eq_right (by linarith)]

lemma depositAll_cell (cols rows : ℕ) (x y : ℤ)
    (hx0 : 0 ≤ x) (hxc : x < (cols : ℤ)) (hy0 : 0 ≤ y) (hyr : y < (rows : ℤ))
    (maxP : ℚ) :
    ∀ (amounts : List ℚ) (field : Field) (s : ℚ),
      (∀ a ∈ amounts, 0 ≤ a) →
      field.length = cols * rows →
      field.getD (x + y * (cols : ℤ)).toNat 0 = min s maxP →
      (depositAll field cols rows x y amounts maxP).length = cols * rows ∧
      (depositAll field cols rows x y amounts maxP).getD
          (x + y * (cols : ℤ)).toNat 0 = min (s + amounts.sum) maxP := by
  intro amounts
  induction amounts with
  | nil =>
      intro field s hnn hlen hcell
      refine ⟨hlen, ?_⟩
      rw [List.sum_nil, add_zero]
      exact hcell
  | cons a t ih =>
      intro field s hnn hlen hcell
      have hidx : (x + y * (cols : ℤ)).toNat < field.length := by
        rw [hlen]; exact idx_toNat_lt cols rows x y hx0 hxc hy0 hyr
      have hstep : depositAll field cols rows x y (a :: t) maxP =
          depositAll
            (field.set (x + y * (cols : ℤ)).toNat (min (min s maxP + a) maxP))
            cols rows x y t maxP := by
        simp only [depositAll, List.foldl_cons]
        rw [depositPheromone_inbounds field cols rows x y a maxP hx0 hxc hy0 hyr,
          hcell]
      rw [hstep]
      have ha : 0 ≤ a := hnn a (List.mem_cons_self _ _)
      obtain ⟨hlen', hcell'⟩ := ih
        (field.set (x + y * (cols : ℤ)).toNat (min (min s maxP + a) maxP))
        (s + a)
        (fun b hb => hnn b (List.mem_cons_of_mem _ hb))
        (by rw [List.length_set]; exact hlen)
        (by rw [getD_set_self _ _ _ hidx]; exact min_add_min s a maxP ha)
      refine ⟨hlen', ?_⟩
      rw [hcell', List.sum_cons, ← add_assoc]

/-- C4: starting from a zero cell, a finite sequence of non-negative
deposits at the same in-bounds cell reads back as
`min(sum of deposits, maxLevel)`; in particular the cell never exceeds
`maxLevel`. -/
theorem deposit_saturation (field : Field) (cols rows : ℕ) (x y : ℤ)
    (amounts : List ℚ) (maxP : ℚ)
    (hx0 : 0 ≤ x) (hxc : x < (cols : ℤ)) (hy0 : 0 ≤ y) (hyr : y < (rows : ℤ))
    (hM : 0 ≤ maxP) (hlen : field.length = cols * rows)
    (hnn : ∀ a ∈ amounts, 0 ≤ a)
    (hzero : getPheromoneAt field cols rows x y = 0) :
    getPheromoneAt (depositAll field cols rows x y amounts maxP) cols rows x y =
      min amounts.sum maxP ∧
    getPheromoneAt (depositAll field cols rows x y amounts maxP) cols rows x y ≤
      maxP := by
  have hcond : ¬ (x < 0 ∨ (cols : ℤ) ≤ x ∨ y < 0 ∨ (rows : ℤ) ≤ y) := by omega
  have hcell0 : field.getD (x + y * (cols : ℤ)).toNat 0 = min 0 maxP := by
    simp only [getPheromoneAt, if_neg hcond] at hzero
    rw [hzero, min_eq_left hM]
  obtain ⟨-, hcell⟩ := depositAll_cell cols rows x y hx0 hxc hy0 hyr maxP
    amounts field 0 hnn hlen hcell0
  simp only [getPheromoneAt, if_neg hcond]
  rw [hcell, zero_add]
  exact ⟨rfl, min_le_right _ _⟩

/-- Witness for C4: two deposits 3 and 4 with `maxLevel` 5 saturate at 5. -/
theorem deposit_saturation_witness :
    getPheromoneAt (depositAll [0] 1 1 0 0 [3, 4] 5) 1 1 0 0 =
      min ([3, 4] : List ℚ).sum 5 :=
  (deposit_saturation [0] 1 1 0 0 [3, 4] 5 (by decide) (by decide) (by decide)
    (by decide) (by norm_num) (by decide)
    (by intro a ha; rcases List.mem_cons.1 ha with rfl | ha2
        · norm_num
        · rcases List.mem_singleton.1 ha2 with rfl; norm_num)
    (by rfl)).1

lemma foldl_add_eq (l : List ℚ) : ∀ a : ℚ, l.foldl (fun t v => t + v) a = a + l.sum := by
  induction l with
  | nil => intro a; simp
  | cons x t ih => intro a; simp only [List.foldl_cons, List.sum_cons, ih (a + x)]; ring

lemma list_sum_eq_range (l : List ℚ) :
    l.sum = ∑ j in Finset.range l.length, l.getD j 0 := by
  induction l with
  | nil => simp
  | cons a t ih =>
      rw [List.sum_cons, List.length_cons, Finset.sum_range_succ']
      simp only [List.getD_cons_succ, List.getD_cons_zero]
      rw [← ih]
      ring

lemma getTotalPheromone_eq_sum (field : Field) :
    getTotalPheromone field = ∑ j in Finset.range field.length, field.getD j 0 := by
  rw [getTotalPheromone, foldl_add_eq, zero_add, list_sum_eq_range]

lemma sum_range_mul (cols : ℕ) (f : ℕ → ℚ) :
    ∀ rows : ℕ, ∑ j in Finset.range (cols * rows), f j =
      ∑ y in Finset.range rows, ∑ x in Finset.range cols, f (x + y * cols) := by
  intro rows
  induction rows with
  | zero => simp
  | succ n ih =>
      have hmul : cols * (n + 1) = cols * n + cols := by ring
      rw [hmul, Finset.sum_range_succ, ← ih]
      have hsplit : ∑ j in Finset.Ico 0 (cols * n), f j +
          ∑ j in Finset.Ico (cols * n) (cols * n + cols), f j =
          ∑ j in Finset.Ico 0 (cols * n + cols), f j :=
        Finset.sum_Ico_consecutive f (Nat.zero_le _) (Nat.le_add_right _ _)
      have hsecond : ∑ j in Finset.Ico (cols * n) (cols * n + cols), f j =
          ∑ x in Finset.range cols, f (x + n * cols) := by
        rw [Finset.sum_Ico_eq_sum_range]
        simp only [Nat.add_sub_cancel_left]
        exact Finset.sum_congr rfl
          (fun x _ => by rw [show cols * n + x = x + n * cols from by ring])
      rw [← Finset.range_eq_Ico] at hsplit
      rw [← hsplit, hsecond]

lemma getTotalPheromone_double (field : Field) (cols rows : ℕ)
    (hlen : field.length = cols * rows) :
    getTotalPheromone field =
      ∑ p in (Finset.range rows) ×ˢ (Finset.range cols),
        field.getD (p.2 + p.1 * cols) 0 := by
  rw [getTotalPheromone_eq_sum, hlen, sum_range_mul, Finset.sum_product]

lemma sum_shift_le (cols rows : ℕ) (F : ℕ × ℕ → ℚ) (hF : ∀ p, 0 ≤ F p)
    (g : ℕ × ℕ → ℕ × ℕ)
    (hmap : ∀ p ∈ (Finset.Ico 1 (rows - 1)) ×ˢ (Finset.Ico 1 (cols - 1)),
      g p ∈ (Finset.range rows) ×ˢ (Finset.range cols))
    (hinj : ∀ p ∈ (Finset.Ico 1 (rows - 1)) ×ˢ (Finset.Ico 1 (cols - 1)),
      ∀ q ∈ (Finset.Ico 1 (rows - 1)) ×ˢ (Finset.Ico 1 (cols - 1)),
        g p = g q → p = q) :
    ∑ p in (Finset.Ico 1 (rows - 1)) ×ˢ (Finset.Ico 1 (cols - 1)), F (g p) ≤
      ∑ p in (Finset.range rows) ×ˢ (Finset.range cols), F p := by
  rw [← Finset.sum_image hinj]
  refine Finset.sum_le_sum_of_subset_of_nonneg ?_ (fun p _ _ => hF p)
  intro p hp
  rcases Finset.mem_image.1 hp with ⟨q, hq, rfl⟩
  exact hmap q hq

lemma shift_sum_le_getD (field : Field) (cols rows : ℕ)
    (hF : ∀ j, 0 ≤ field.getD j 0) (a b : ℕ) (ha : a ≤ 2) (hb : b ≤ 2) :
    ∑ p in (Finset.Ico 1 (rows - 1)) ×ˢ (Finset.Ico 1 (cols - 1)),
      field.getD (p.2 + b - 1 + (p.1 + a - 1) * cols) 0 ≤
    ∑ p in (Finset.range rows) ×ˢ (Finset.range cols),
      field.getD (p.2 + p.1 * cols) 0 := by
  refine sum_shift_le cols rows (fun q => field.getD (q.2 + q.1 * cols) 0)
    (fun q => hF _) (fun p => (p.1 + a - 1, p.2 + b - 1)) ?_ ?_
  · rintro ⟨p1, p2⟩ hp
    simp only [Finset.mem_product, Finset.mem_Ico, Finset.mem_range] at hp ⊢
    omega
  · rintro ⟨p1, p2⟩ hp ⟨q1, q2⟩ hq h
    simp only [Finset.mem_product, Finset.mem_Ico] at hp hq
    simp only [Prod.mk.injEq] at h ⊢
    omega

/-- C3: with only interior mass, non-negative cells and
`evaporationRate = 1`, a diffusion step never increases the total
pheromone. -/
theorem mass_conservation (field : Field) (cols rows : ℕ) (d : ℚ)
    (hlen : field.length = cols * rows)
    (hnn : ∀ j < field.length, 0 ≤ field.getD j 0)
    (hbz : ∀ x y : ℕ, x < cols → y < rows → isBoundary cols rows x y →
      field.getD (x + y * cols) 0 = 0)
    (hd0 : 0 ≤ d) (hd1 : d ≤ 1) :
    getTotalPheromone (diffusePheromones field cols rows d 1) ≤
      getTotalPheromone field := by
  classical
  have hF : ∀ j, 0 ≤ field.getD j 0 := getD_nonneg_of_forall field hnn
  have hlen2 : (diffusePheromones field cols rows d 1).length = cols * rows := by
    rw [diffusePheromones_length, hlen]
  rw [getTotalPheromone_double (diffusePheromones field cols rows d 1) cols rows
    hlen2, getTotalPheromone_double field cols rows hlen]
  have hchar : ∀ p ∈ (Finset.range rows) ×ˢ (Finset.range cols),
      (diffusePheromones field cols rows d 1).getD (p.2 + p.1 * cols) 0 =
        if isBoundary cols rows p.2 p.1 then 0
        else diffusedAt field cols d 1 (p.2 + p.1 * cols) := by
    intro p hp
    rw [Finset.mem_product, Finset.mem_range, Finset.mem_range] at hp
    rw [diffusePheromones_getD field cols rows d 1 hlen p.2 p.1 hp.2 hp.1]
    by_cases hb : isBoundary cols rows p.2 p.1
    · rw [if_pos hb, if_pos hb, hbz p.2 p.1 hp.2 hp.1 hb, zero_mul]
    · rw [if_neg hb, if_neg hb]
  rw [Finset.sum_congr rfl hchar]
  have hIB : (Finset.Ico 1 (rows - 1)) ×ˢ (Finset.Ico 1 (cols - 1)) ⊆
      (Finset.range rows) ×ˢ (Finset.range cols) := by
    intro p hp
    simp only [Finset.mem_product, Finset.mem_Ico, Finset.mem_range] at hp ⊢
    omega
  rw [← Finset.sum_sdiff hIB]
  have hbd0 : ∑ p in ((Finset.range rows) ×ˢ (Finset.range cols)) \
      ((Finset.Ico 1 (rows - 1)) ×ˢ (Finset.Ico 1 (cols - 1))),
      (if isBoundary cols rows p.2 p.1 then 0
       else diffusedAt field cols d 1 (p.2 + p.1 * cols)) = 0 := by
    refine Finset.sum_eq_zero ?_
    intro p hp
    simp only [Finset.mem_sdiff, Finset.mem_product, Finset.mem_range,
      Finset.mem_Ico] at hp
    have hb : isBoundary cols rows p.2 p.1 := by
      simp only [isBoundary]
      omega
    rw [if_pos hb]
  rw [hbd0, zero_add]
  have hiff : ∀ p ∈ (Finset.Ico 1 (rows - 1)) ×ˢ (Finset.Ico 1 (cols - 1)),
      (if isBoundary cols rows p.2 p.1 then 0
       else diffusedAt field cols d 1 (p.2 + p.1 * cols)) =
      field.getD (p.2 + p.1 * cols) 0 * (1 - d) +
        (field.getD (p.2 - 1 + p.1 * cols) 0 +
         field.getD (p.2 + 1 + p.1 * cols) 0 +
         field.getD (p.2 + (p.1 - 1) * cols) 0 +
         field.getD (p.2 + (p.1 + 1) * cols) 0 +
         field.getD (p.2 - 1 + (p.1 - 1) * cols) 0 +
         field.getD (p.2 + 1 + (p.1 - 1) * cols) 0 +
         field.getD (p.2 - 1 + (p.1 + 1) * cols) 0 +
         field.getD (p.2 + 1 + (p.1 + 1) * cols) 0) / 8 * d := by
    intro p hp
    simp only [Finset.mem_product, Finset.mem_Ico] at hp
    have hb : ¬ isBoundary cols rows p.2 p.1 := by
      simp only [isBoundary]
      omega
    rw [if_neg hb, diffusedAt_coords field cols d 1 p.2 p.1 hp.2.1 hp.1.1,
      mul_one]
  rw [Finset.sum_congr rfl hiff, Finset.sum_add_distrib, ← Finset.sum_mul,
    ← Finset.sum_mul, ← Finset.sum_div]
  simp only [Finset.sum_add_distrib]
  have hS0 : ∑ p in ((Finset.range rows) ×ˢ (Finset.range cols)) \
      ((Finset.Ico 1 (rows - 1)) ×ˢ (Finset.Ico 1 (cols - 1))),
      field.getD (p.2 + p.1 * cols) 0 = 0 := by
    refine Finset.sum_eq_zero ?_
    intro p hp
    simp only [Finset.mem_sdiff, Finset.mem_product, Finset.mem_range,
      Finset.mem_Ico] at hp
    refine hbz p.2 p.1 hp.1.2 hp.1.1 ?_
    simp only [isBoundary]
    omega
  have hSI : ∑ p in (Finset.Ico 1 (rows - 1)) ×ˢ (Finset.Ico 1 (cols - 1)),
      field.getD (p.2 + p.1 * cols) 0 =
      ∑ p in (Finset.range rows) ×ˢ (Finset.range cols),
        field.getD (p.2 + p.1 * cols) 0 := by
    rw [← Finset.sum_sdiff hIB, hS0, zero_add]
  rw [hSI]
  have h1 : ∑ p in (Finset.Ico 1 (rows - 1)) ×ˢ (Finset.Ico 1 (cols - 1)),
      field.getD (p.2 - 1 + p.1 * cols) 0 ≤
      ∑ p in (Finset.range rows) ×ˢ (Finset.range cols),
        field.getD (p.2 + p.1 * cols) 0 :=
    shift_sum_le_getD field cols rows hF 1 0 (by norm_num) (by norm_num)
  have h2 : ∑ p in (Finset.Ico 1 (rows - 1)) ×ˢ (Finset.Ico 1 (cols - 1)),
      field.getD (p.2 + 1 + p.1 * cols) 0 ≤
      ∑ p in (Finset.range rows) ×ˢ (Finset.range cols),
        field.getD (p.2 + p.1 * cols) 0 :=
    shift_sum_le_getD field cols rows hF 1 2 (by norm_num) (by norm_num)
  have h3 : ∑ p in (Finset.Ico 1 (rows - 1)) ×ˢ (Finset.Ico 1 (cols - 1)),
      field.getD (p.2 + (p.1 - 1) * cols) 0 ≤
      ∑ p in (Finset.range rows) ×ˢ (Finset.range cols),
        field.getD (p.2 + p.1 * cols) 0 :=
    shift_sum_le_getD field cols rows hF 0 1 (by norm_num) (by norm_num)
  have h4 : ∑ p in (Finset.Ico 1 (rows - 1)) ×ˢ (Finset.Ico 1 (cols - 1)),
      field.getD (p.2 + (p.1 + 1) * cols) 0 ≤
      ∑ p in (Finset.range rows) ×ˢ (Finset.range cols),
        field.getD (p.2 + p.1 * cols) 0 :=
    shift_sum_le_getD field cols rows hF 2 1 (by norm_num) (by norm_num)
  have h5 : ∑ p in (Finset.Ico 1 (rows - 1)) ×ˢ (Finset.Ico 1 (cols - 1)),
      field.getD (p.2 - 1 + (p.1 - 1) * cols) 0 ≤
      ∑ p in (Finset.range rows) ×ˢ (Finset.range cols),
        field.getD (p.2 + p.1 * cols) 0 :=
    shift_sum_le_getD field cols rows hF 0 0 (by norm_num) (by norm_num)
  have h6 : ∑ p in (Finset.Ico 1 (rows - 1)) ×ˢ (Finset.Ico 1 (cols - 1)),
      field.getD (p.2 + 1 + (p.1 - 1) * cols) 0 ≤
      ∑ p in (Finset.range rows) ×ˢ (Finset.range cols),
        field.getD (p.2 + p.1 * cols) 0 :=
    shift_sum_le_getD field cols rows hF 0 2 (by norm_num) (by norm_num)
  have h7 : ∑ p in (Finset.Ico 1 (rows - 1)) ×ˢ (Finset.Ico 1 (cols - 1)),
      field.getD (p.2 - 1 + (p.1 + 1) * cols) 0 ≤
      ∑ p in (Finset.range rows) ×ˢ (Finset.range cols),
        field.getD (p.2 + p.1 * cols) 0 :=
    shift_sum_le_getD field cols rows hF 2 0 (by norm_num) (by norm_num)
  have h8 : ∑ p in (Finset.Ico 1 (rows - 1)) ×ˢ (Finset.Ico 1 (cols - 1)),
      field.getD (p.2 + 1 + (p.1 + 1) * cols) 0 ≤
      ∑ p in (Finset.range rows) ×ˢ (Finset.range cols),
        field.getD (p.2 + p.1 * cols) 0 :=
    shift_sum_le_getD field cols rows hF 2 2 (by norm_num) (by norm_num)
  have hSnn : 0 ≤ ∑ p in (Finset.range rows) ×ˢ (Finset.range cols),
      field.getD (p.2 + p.1 * cols) 0 :=
    Finset.sum_nonneg (fun p _ => hF _)
  nlinarith [h1, h2, h3, h4, h5, h6, h7, h8, hd0, hd1, hSnn]

/-- Witness for C3: a 3×3 field with all mass in the center. -/
theorem mass_conservation_witness :
    getTotalPheromone (diffusePheromones [0, 0, 0, 0, 8, 0, 0, 0, 0] 3 3 (1/2) 1) ≤
      getTotalPheromone [0, 0, 0, 0, 8, 0, 0, 0, 0] := by
  refine mass_conservation [0, 0, 0, 0, 8, 0, 0, 0, 0] 3 3 (1/2) (by decide)
    ?_ ?_ (by norm_num) (by norm_num)
  · intro j hj
    have hj9 : j < 9 := by simpa using hj
    interval_cases j <;> norm_num [List.getD]
  · intro x y hx hy hb
    interval_cases x <;> interval_cases y <;>
      first
        | rfl
        | (exfalso; simp [isBoundary] at hb)

lemma foldl_pair_fst {α : Type} (g : Field → Field → α → Field) (field : Field) :
    ∀ (l : List α) (init2 : Field),
      l.foldl (fun s a => (s.1, g s.1 s.2 a)) (field, init2) =
        (field, l.foldl (fun n a => g field n a) init2) := by
  intro l
  induction l with
  | nil => intro init2; rfl
  | cons a t ih => intro init2; simp only [List.foldl_cons]; exact ih _

lemma foldl_pair_fst_nested (g : Field → Field → ℕ → ℕ → Field) (field : Field)
    (l1 l2 : List ℕ) (init2 : Field) :
    l1.foldl (fun s x => l2.foldl (fun s y => (s.1, g s.1 s.2 x y)) s)
      (field, init2) =
      (field,
        l1.foldl (fun n x => l2.foldl (fun n y => g field n x y) n) init2) := by
  have hbody : (fun (s : Field × Field) (x : ℕ) =>
      l2.foldl (fun s y => (s.1, g s.1 s.2 x y)) s) =
      fun s x => (s.1, l2.foldl (fun n y => g s.1 n x y) s.2) := by
    funext s x
    exact foldl_pair_fst (fun f n y => g f n x y) s.1 l2 s.2
  rw [hbody]
  exact foldl_pair_fst (fun f n x => l2.foldl (fun m y => g f m x y) n)
    field l1 init2

/-- C9: frame condition. Under the explicit two-buffer semantics, a
diffusion or evaporation step leaves the input field untouched and its
output agrees with the pure step function: only the freshly allocated
output buffer is written. -/
theorem no_aliasing_frame (field : Field) (cols rows : ℕ) (d e : ℚ) :
    diffusePheromonesTrace field cols rows d e =
      (field, diffusePheromones field cols rows d e) ∧
    evaporatePheromonesTrace field e = (field, evaporatePheromones field e) := by
  constructor
  · simp only [diffusePheromonesTrace, diffusePheromones]
    rw [foldl_pair_fst (fun f n x => (n.set x (f.getD x 0 * e)).set
        (x + (rows - 1) * cols) (f.getD (x + (rows - 1) * cols) 0 * e)) field,
      foldl_pair_fst (fun f n y =>
        (n.set (y * cols) (f.getD (y * cols) 0 * e)).set
        (cols - 1 + y * cols) (f.getD (cols - 1 + y * cols) 0 * e)) field,
      foldl_pair_fst_nested (fun f n x y =>
        n.set (x + y * cols) (diffusedAt f cols d e (x + y * cols))) field]
  · simp only [evaporatePheromonesTrace, evaporatePheromones]
    exact foldl_pair_fst (fun f n i => n.set i (f.getD i 0 * e)) field _ _

/-- C7: `worldToGrid` and `getCellKey` compute identical cell coordinates:
the key is built from exactly the pair returned by `worldToGrid`, both
being the floor of the position divided by the cell size. -/
theorem worldToGrid_cellKey_agree (x y s : ℚ) :
    getCellKey ⟨x, y⟩ s =
      cellKeyOf (worldToGrid x y s).gx (worldToGrid x y s).gy ∧
    (worldToGrid x y s).gx = ⌊x / s⌋ ∧ (worldToGrid x y s).gy = ⌊y / s⌋ :=
  ⟨rfl, rfl, rfl⟩

lemma digit_char_inj :
    ∀ d1 < 10, ∀ d2 < 10,
      Char.ofNat (48 + d1) = Char.ofNat (48 + d2) → d1 = d2 := by decide

lemma digit_char_ne_dash : ∀ d < 10, Char.ofNat (48 + d) ≠ '-' := by decide

lemma digit_char_ne_comma : ∀ d < 10, Char.ofNat (48 + d) ≠ ',' := by decide

lemma natStr_chars (n : ℕ) :
    ∀ c ∈ natStr n, ∃ d, d < 10 ∧ c = Char.ofNat (48 + d) := by
  intro c hc
  by_cases hn : n = 0
  · subst hn
    rw [show natStr 0 = ['0'] from rfl, List.mem_singleton] at hc
    exact ⟨0, by norm_num, by rw [hc]⟩
  · simp only [natStr, if_neg hn, List.mem_map, List.mem_reverse] at hc
    rcases hc with ⟨d, hd, rfl⟩
    exact ⟨d, Nat.digits_lt_base (by norm_num) hd, rfl⟩

lemma map_digit_inj :
    ∀ l1 l2 : List ℕ, (∀ d ∈ l1, d < 10) → (∀ d ∈ l2, d < 10) →
      l1.map (fun d => Char.ofNat (48 + d)) =
        l2.map (fun d => Char.ofNat (48 + d)) → l1 = l2 := by
  intro l1
  induction l1 with
  | nil =>
      intro l2 _ _ h
      cases l2 with
      | nil => rfl
      | cons b t2 => simp at h
  | cons a t ih =>
      intro l2 h1 h2 h
      cases l2 with
      | nil => simp at h
      | cons b t2 =>
          simp only [List.map_cons, List.cons.injEq] at h
          have hab : a = b :=
            digit_char_inj a (h1 a (List.mem_cons_self _ _))
              b (h2 b (List.mem_cons_self _ _)) h.1
          rw [hab, ih t2 (fun d hd => h1 d (List.mem_cons_of_mem _ hd))
            (fun d hd => h2 d (List.mem_cons_of_mem _ hd)) h.2]

lemma natStr_zero_ne (m : ℕ) (hm : m ≠ 0) : natStr 0 ≠ natStr m := by
  intro h
  rw [show natStr 0 = ['0'] from rfl] at h
  simp only [natStr, if_neg hm] at h
  have hlen :
      ((Nat.digits 10 m).reverse.map fun d => Char.ofNat (48 + d)).length = 1 := by
    rw [← h]
    rfl
  rw [List.length_map, List.length_reverse] at hlen
  obtain ⟨d, hd⟩ := List.length_eq_one.1 hlen
  rw [hd] at h
  simp only [List.reverse_singleton, List.map_cons, List.map_nil,
    List.cons.injEq, and_true] at h
  have hd10 : d < 10 :=
    Nat.digits_lt_base (by norm_num) (by rw [hd]; exact List.mem_singleton.2 rfl)
  have hd0 : (0 : ℕ) = d := by
    refine digit_char_inj 0 (by norm_num) d hd10 ?_
    rw [← h]
  have : m = 0 := by
    rw [← Nat.ofDigits_digits 10 m, hd, ← hd0]
    simp [Nat.ofDigits]
  exact hm this

lemma natStr_inj (n m : ℕ) (h : natStr n = natStr m) : n = m := by
  by_cases hn : n = 0 <;> by_cases hm : m = 0
  · rw [hn, hm]
  · exact absurd (hn ▸ h) (natStr_zero_ne m hm)
  · exact absurd (hm ▸ h.symm) (natStr_zero_ne n hn)
  · simp only [natStr, if_neg hn, if_neg hm] at h
    have hd1 : ∀ d ∈ (Nat.digits 10 n).reverse, d < 10 := by
      intro d hd
      exact Nat.digits_lt_base (by norm_num) (List.mem_reverse.1 hd)
    have hd2 : ∀ d ∈ (Nat.digits 10 m).reverse, d < 10 := by
      intro d hd
      exact Nat.digits_lt_base (by norm_num) (List.mem_reverse.1 hd)
    have hrev := map_digit_inj _ _ hd1 hd2 h
    have hdig : Nat.digits 10 n = Nat.digits 10 m :=
      List.reverse_injective hrev
    rw [← Nat.ofDigits_digits 10 n, ← Nat.ofDigits_digits 10 m, hdig]

lemma intStr_comma_free (z : ℤ) : ',' ∉ intStr z := by
  intro hmem
  by_cases hz : z < 0
  · rw [intStr, if_pos hz] at hmem
    rcases List.mem_cons.1 hmem with h | h
    · exact absurd h (by decide)
    · obtain ⟨d, hd, hceq⟩ := natStr_chars _ ',' h
      exact digit_char_ne_comma d hd hceq.symm
  · rw [intStr, if_neg hz] at hmem
    obtain ⟨d, hd, hceq⟩ := natStr_chars _ ',' hmem
    exact digit_char_ne_comma d hd hceq.symm

lemma intStr_inj (a b : ℤ) (h : intStr a = intStr b) : a = b := by
  by_cases ha : a < 0 <;> by_cases hb : b < 0
  · rw [intStr, if_pos ha, intStr, if_pos hb, List.cons.injEq] at h
    have := natStr_inj _ _ h.2
    omega
  · exfalso
    rw [intStr, if_pos ha, intStr, if_neg hb] at h
    have hdash : '-' ∈ natStr b.toNat := by
      rw [← h]
      exact List.mem_cons_self _ _
    obtain ⟨d, hd, hceq⟩ := natStr_chars _ '-' hdash
    exact digit_char_ne_dash d hd hceq.symm
  · exfalso
    rw [intStr, if_neg ha, intStr, if_pos hb] at h
    have hdash : '-' ∈ natStr a.toNat := by
      rw [h]
      exact List.mem_cons_self _ _
    obtain ⟨d, hd, hceq⟩ := natStr_chars _ '-' hdash
    exact digit_char_ne_dash d hd hceq.symm
  · rw [intStr, if_neg ha, intStr, if_neg hb] at h
    have := natStr_inj _ _ h
    omega

lemma append_comma_inj :
    ∀ a1 b1 a2 b2 : List Char, ',' ∉ a1 → ',' ∉ b1 →
      a1 ++ ',' :: a2 = b1 ++ ',' :: b2 → a1 = b1 ∧ a2 = b2 := by
  intro a1
  induction a1 with
  | nil =>
      intro b1 a2 b2 _ hb1 h
      cases b1 with
      | nil =>
          simp only [List.nil_append, List.cons.injEq, true_and] at h
          exact ⟨rfl, h⟩
      | cons c2 t2 =>
          exfalso
          simp only [List.nil_append, List.cons_append, List.cons.injEq] at h
          exact hb1 (h.1 ▸ List.mem_cons_self _ _)
  | cons c t ih =>
      intro b1 a2 b2 ha1 hb1 h
      cases b1 with
      | nil =>
          exfalso
          simp only [List.nil_append, List.cons_append, List.cons.injEq] at h
          exact ha1 (h.1 ▸ List.mem_cons_self _ _)
      | cons c2 t2 =>
          simp only [List.cons_append, List.cons.injEq] at h
          obtain ⟨hteq, haeq⟩ := ih t2 a2 b2
            (fun hx => ha1 (List.mem_cons_of_mem _ hx))
            (fun hx => hb1 (List.mem_cons_of_mem _ hx)) h.2
          exact ⟨by rw [h.1, hteq], haeq⟩

lemma cellKeyOf_inj (cx cy cx2 cy2 : ℤ) :
    cellKeyOf cx cy = cellKeyOf cx2 cy2 ↔ cx = cx2 ∧ cy = cy2 := by
  constructor
  · intro h
    have hform : ∀ a b : ℤ, cellKeyOf a b = intStr a ++ ',' :: intStr b := by
      intro a b
      simp [cellKeyOf]
    rw [hform, hform] at h
    obtain ⟨h1, h2⟩ := append_comma_inj _ _ _ _
      (intStr_comma_free cx) (intStr_comma_free cx2) h
    exact ⟨intStr_inj _ _ h1, intStr_inj _ _ h2⟩
  · rintro ⟨rfl, rfl⟩
    rfl

/-- C8: `getCellKey` is deterministic and collision-free on integer cell
coordinates: two positions produce the same key exactly when their
floor-division cell coordinates agree in both axes, negative coordinates
included. -/
theorem getCellKey_collision_free (p q : Vector2D) (s : ℚ) :
    getCellKey p s = getCellKey q s ↔
      (⌊p.x / s⌋ = ⌊q.x / s⌋ ∧ ⌊p.y / s⌋ = ⌊q.y / s⌋) := by
  simp only [getCellKey]
  exact cellKeyOf_inj _ _ _ _

lemma hashStep_mem (s : ℚ) (g : SpatialGrid) (a : Boid) (k : List Char)
    (b : Boid) :
    b ∈ hashStep s g a k ↔
      b ∈ g k ∨ (b = a ∧ cellKeyOf ⌊a.pos.x / s⌋ ⌊a.pos.y / s⌋ = k) := by
  simp only [hashStep]
  by_cases hk : k = cellKeyOf ⌊a.pos.x / s⌋ ⌊a.pos.y / s⌋
  · rw [if_pos hk, List.mem_append, List.mem_singleton]
    constructor
    · rintro (h | h)
      · left; rw [hk]; exact h
      · right; exact ⟨h, hk.symm⟩
    · rintro (h | ⟨h, -⟩)
      · left; rw [← hk]; exact h
      · right; exact h
  · rw [if_neg hk]
    constructor
    · intro h
      exact Or.inl h
    · rintro (h | ⟨rfl, hkey⟩)
      · exact h
      · exact absurd hkey (fun hh => hk hh.symm)

lemma buildSpatialHash_go_mem (s : ℚ) :
    ∀ (l : List Boid) (g : SpatialGrid) (k : List Char) (b : Boid),
      b ∈ l.foldl (hashStep s) g k ↔
        b ∈ g k ∨ (b ∈ l ∧ cellKeyOf ⌊b.pos.x / s⌋ ⌊b.pos.y / s⌋ = k) := by
  intro l
  induction l with
  | nil => intro g k b; simp
  | cons a t ih =>
      intro g k b
      rw [List.foldl_cons, ih (hashStep s g a) k b, hashStep_mem]
      constructor
      · rintro ((h | ⟨rfl, hkey⟩) | ⟨hbt, hkey⟩)
        · exact Or.inl h
        · exact Or.inr ⟨List.mem_cons_self _ _, hkey⟩
        · exact Or.inr ⟨List.mem_cons_of_mem _ hbt, hkey⟩
      · rintro (h | ⟨hbl, hkey⟩)
        · exact Or.inl (Or.inl h)
        · rcases List.mem_cons.1 hbl with rfl | hbt
          · exact Or.inl (Or.inr ⟨rfl, hkey⟩)
          · exact Or.inr ⟨hbt, hkey⟩

lemma buildSpatialHash_mem (boids : List Boid) (s : ℚ) (k : List Char)
    (b : Boid) :
    b ∈ buildSpatialHash boids s k ↔
      b ∈ boids ∧ cellKeyOf ⌊b.pos.x / s⌋ ⌊b.pos.y / s⌋ = k := by
  have hdef : buildSpatialHash boids s = boids.foldl (hashStep s) (fun _ => []) :=
    rfl
  rw [hdef, buildSpatialHash_go_mem]
  simp

lemma getNeighbors_mem (q b : Boid) (grid : SpatialGrid) (s : ℚ) :
    b ∈ getNeighbors q grid s ↔
      ∃ dx ∈ ([-1, 0, 1] : List ℤ), ∃ dy ∈ ([-1, 0, 1] : List ℤ),
        b ∈ grid (cellKeyOf (⌊q.pos.x / s⌋ + dx) (⌊q.pos.y / s⌋ + dy)) := by
  simp only [getNeighbors, List.mem_flatMap]

/-- C2: every entity whose cell coordinates differ from those of the query
entity by at most 1 in each axis is returned by `getNeighbors` over
`buildSpatialHash`, and an entity two or more cells away in both axes is
never returned. -/
theorem spatial_hash_query_guarantee (boids : List Boid) (s : ℚ) (q b : Boid)
    (hb : b ∈ boids) :
    ((⌊b.pos.x / s⌋ - ⌊q.pos.x / s⌋).natAbs ≤ 1 ∧
     (⌊b.pos.y / s⌋ - ⌊q.pos.y / s⌋).natAbs ≤ 1 →
      b ∈ getNeighbors q (buildSpatialHash boids s) s) ∧
    (2 ≤ (⌊b.pos.x / s⌋ - ⌊q.pos.x / s⌋).natAbs ∧
     2 ≤ (⌊b.pos.y / s⌋ - ⌊q.pos.y / s⌋).natAbs →
      b ∉ getNeighbors q (buildSpatialHash boids s) s) := by
  constructor
  · rintro ⟨hx, hy⟩
    rw [getNeighbors_mem]
    refine ⟨⌊b.pos.x / s⌋ - ⌊q.pos.x / s⌋, ?_,
      ⌊b.pos.y / s⌋ - ⌊q.pos.y / s⌋, ?_, ?_⟩
    · simp only [List.mem_cons, List.mem_singleton]
      omega
    · simp only [List.mem_cons, List.mem_singleton]
      omega
    · rw [buildSpatialHash_mem]
      refine ⟨hb, ?_⟩
      congr 1 <;> omega
  · rintro ⟨hx, hy⟩ hmem
    rw [getNeighbors_mem] at hmem
    obtain ⟨dx, hdx, dy, hdy, hbg⟩ := hmem
    rw [buildSpatialHash_mem] at hbg
    obtain ⟨-, hkey⟩ := hbg
    rw [cellKeyOf_inj] at hkey
    simp only [List.mem_cons, List.mem_singleton, List.not_mem_nil, or_false]
      at hdx hdy
    omega

/-- Witness for C2: the 3-entity scenario with cell size 50; the entity
at (75, 25) sits one cell to the right of the query entity at (25, 25)
and is returned. -/
theorem spatial_hash_query_guarantee_witness :
    (⟨⟨75, 25⟩, ⟨0, 0⟩, ⟨0, 0⟩, 0, 0⟩ : Boid) ∈
      getNeighbors ⟨⟨25, 25⟩, ⟨0, 0⟩, ⟨0, 0⟩, 0, 0⟩
        (buildSpatialHash
          [⟨⟨25, 25⟩, ⟨0, 0⟩, ⟨0, 0⟩, 0, 0⟩,
           ⟨⟨75, 25⟩, ⟨0, 0⟩, ⟨0, 0⟩, 0, 0⟩,
           ⟨⟨25, 75⟩, ⟨0, 0⟩, ⟨0, 0⟩, 0, 0⟩] 50) 50 := by
  have hf1 : ⌊(75 : ℚ) / 50⌋ = 1 :=
    Int.floor_eq_iff.2 ⟨by norm_num, by norm_num⟩
  have hf0 : ⌊(25 : ℚ) / 50⌋ = 0 :=
    Int.floor_eq_iff.2 ⟨by norm_num, by norm_num⟩
  refine (spatial_hash_query_guarantee _ 50 _ _
    (List.mem_cons_of_mem _ (List.mem_cons_self _ _))).1 ⟨?_, ?_⟩
  · show (⌊(75 : ℚ) / 50⌋ - ⌊(25 : ℚ) / 50⌋).natAbs ≤ 1
    rw [hf1, hf0]
    decide
  · show (⌊(25 : ℚ) / 50⌋ - ⌊(25 : ℚ) / 50⌋).natAbs ≤ 1
    rw [hf0]
    decide

end Profile
